import Mathlib

/-!
# SquirrelZip archive codec: a shallow embedding

This file embeds the core of the SquirrelZip archive utility
(package `hfc` in `src/compressor/hfc/huffman.go`, package `encryption` in
`src/encryption/encryption.go`, and `src/constants/constants.go`) and proves
or refutes the specification's claims about it.

Conventions of the embedding:
* a byte is a `Nat` in `0..255`; a Go `rune` (`int32`) is an `Int`;
  machine-word overflow is modelled with explicit `% 2^w` where it matters
  (`byte` shifts, the `uint32` bit accumulator, the `uint8` bit counter);
* an `io.Reader` positioned in a byte stream is the list of bytes still to be
  read; a reading step consumes a prefix and returns the rest.  A
  deterministic in-memory reader (`bytes.Reader` / `os.File` over a finished
  file) returns `min(len(buf), remaining)` bytes per call, which is what
  `readUpTo` does; `binary.Read` / `io.ReadFull` fail unless the full width
  is available, which is what `readFull` does;
* Go `map` iteration order is unspecified and randomized; functions that
  range over a map take the iteration order as an explicit association-list
  argument.  Where a claim depends on that order the order is quantified;
* a nil-pointer dereference or slice-bounds panic in the Go code is
  modelled as `none`;
* the filesystem and terminal collaborators (`os.Create`, `path.Join`,
  `fmt.Printf`, ...) are out of scope per the spec; `Unzip` returns the
  decoded `(name, content)` pairs instead of creating files.
-/

namespace SZ

/-- `readFull n s` models `io.ReadFull` / `binary.Read` of `n` bytes:
it fails unless `n` bytes are available. -/
def readFull (n : Nat) (s : List Nat) : Option (List Nat × List Nat) :=
  if n ≤ s.length then some (s.take n, s.drop n) else none

/-- `readUpTo n s` models one `Read` call on a deterministic in-memory
reader: it returns `min n s.length` bytes and never fails. -/
def readUpTo (n : Nat) (s : List Nat) : List Nat × List Nat :=
  (s.take n, s.drop n)

/-- Little-endian 2-byte encoding of a `uint16` value. -/
def u16le (n : Nat) : List Nat := [n % 256, n / 256 % 256]

/-- Little-endian 4-byte encoding of a `uint32` value. -/
def u32le (n : Nat) : List Nat :=
  [n % 256, n / 256 % 256, n / 65536 % 256, n / 16777216 % 256]

/-- Little-endian 8-byte encoding of a `uint64` value. -/
def u64le (n : Nat) : List Nat :=
  [n % 256, n / 256 % 256, n / 65536 % 256, n / 16777216 % 256,
   n / 4294967296 % 256, n / 1099511627776 % 256,
   n / 281474976710656 % 256, n / 72057594037927936 % 256]

/-- Value of a little-endian byte list. -/
def leVal (bs : List Nat) : Nat :=
  match bs with
  | [] => 0
  | b :: rest => b + 256 * leVal rest

/-- `binary.Read` of a little-endian `uint16`. -/
def readU16le (s : List Nat) : Option (Nat × List Nat) :=
  (readFull 2 s).map (fun p => (leVal p.1, p.2))

/-- `binary.Read` of a little-endian `uint32`. -/
def readU32le (s : List Nat) : Option (Nat × List Nat) :=
  (readFull 4 s).map (fun p => (leVal p.1, p.2))

/-- `binary.Read` of a little-endian `uint64`. -/
def readU64le (s : List Nat) : Option (Nat × List Nat) :=
  (readFull 8 s).map (fun p => (leVal p.1, p.2))

/-- Splitting a stream into successive chunks of `n` bytes (the last chunk
may be shorter): the sequence of buffers a 256- or 1024-byte read loop sees
on a deterministic reader.  The fuel argument of the worker only bounds the
iteration count (each round consumes at least one byte, so `l.length + 1`
rounds always finish the list); it is structural recursion in place of the
Go loop's until-empty condition. -/
def chunksOfAux : Nat → Nat → List Nat → List (List Nat)
  | 0, _, _ => []
  | fuel + 1, n, l =>
    if l.isEmpty ∨ n = 0 then [] else l.take n :: chunksOfAux fuel n (l.drop n)

/-- Chunk decomposition of a stream (see `chunksOfAux`). -/
def chunksOf (n : Nat) (l : List Nat) : List (List Nat) :=
  chunksOfAux (l.length + 1) n l

end SZ

namespace hfc

/-- `BUFFER_SIZE` of package `hfc` (`src/compressor/hfc/huffman.go`). -/
def BUFFER_SIZE : Nat := 256

/-- A node of the Huffman tree (`type Node struct` in
`src/compressor/hfc/huffman.go`); `nil` is the nil `*Node` pointer.
A leaf is a node whose `left` and `right` are both nil.  Note the Go zero
values: an internal node produced by the merge loop has `char = 0`. -/
inductive HTree where
  | nil : HTree
  | node (char : Int) (freq : Int) (left right : HTree) : HTree
deriving Repr, DecidableEq

namespace HTree

/-- `node.char` (0 on a nil pointer, which the code never dereferences). -/
def char : HTree → Int
  | .nil => 0
  | .node c _ _ _ => c

/-- `node.freq`. -/
def freq : HTree → Int
  | .nil => 0
  | .node _ f _ _ => f

/-- `node.left`. -/
def left : HTree → HTree
  | .nil => .nil
  | .node _ _ l _ => l

/-- `node.right`. -/
def right : HTree → HTree
  | .nil => .nil
  | .node _ _ _ r => r

end HTree

/-- `PriorityQueue.Less` (lines 359–364): frequency ascending, ties broken
by the node's own `char` field.  A merged internal node carries `char = 0`,
so two merged nodes of equal frequency compare equal. -/
def pqLess (a b : HTree) : Bool :=
  if a.freq == b.freq then decide (a.char < b.char) else decide (a.freq < b.freq)

/-- Element read used by `container/heap` (out-of-range reads never happen
on the index patterns the heap uses). -/
def hGet (l : List HTree) (i : Nat) : HTree := l.getD i .nil

/-- `PriorityQueue.Swap`. -/
def hSwap (l : List HTree) (i j : Nat) : List HTree :=
  (l.set i (hGet l j)).set j (hGet l i)

/-- The loop of `container/heap.down`, with fuel; the sift index strictly
increases and is bounded by `n`, so fuel `n` always suffices. -/
def downAux : Nat → List HTree → Nat → Nat → List HTree
  | 0, l, _, _ => l
  | fuel + 1, l, i, n =>
    let j1 := 2 * i + 1
    if j1 ≥ n then l
    else
      let j := if j1 + 1 < n ∧ pqLess (hGet l (j1 + 1)) (hGet l j1) then j1 + 1 else j1
      if pqLess (hGet l j) (hGet l i) then downAux fuel (hSwap l i j) j n
      else l

/-- `container/heap.down h i n` (sift-down within the first `n` elements). -/
def hDown (l : List HTree) (i n : Nat) : List HTree := downAux n l i n

/-- The loop of `container/heap.up`, with fuel; the index strictly
decreases, so fuel `j + 1` always suffices. -/
def upAux : Nat → List HTree → Nat → List HTree
  | 0, l, _ => l
  | fuel + 1, l, j =>
    let i := (j - 1) / 2
    if i == j || !pqLess (hGet l j) (hGet l i) then l
    else upAux fuel (hSwap l i j) i

/-- `container/heap.up h j`. -/
def hUp (l : List HTree) (j : Nat) : List HTree := upAux (j + 1) l j

/-- The loop of `container/heap.Init`: `for i := n/2 - 1; i >= 0; i--`
(`heapInitAux (n/2)` performs the iterations `i = n/2 - 1, ..., 0`). -/
def heapInitAux : Nat → List HTree → List HTree
  | 0, l => l
  | i + 1, l => heapInitAux i (hDown l i l.length)

/-- `container/heap.Init`. -/
def heapInit (l : List HTree) : List HTree := heapInitAux (l.length / 2) l

/-- `container/heap.Push`: append, then sift the last element up. -/
def heapPush (l : List HTree) (x : HTree) : List HTree :=
  hUp (l ++ [x]) l.length

/-- `container/heap.Pop`: swap root and last, sift down within `n - 1`,
then remove and return the last element. -/
def heapPop (l : List HTree) : HTree × List HTree :=
  let n := l.length - 1
  let l2 := hDown (hSwap l 0 n) 0 n
  (hGet l2 n, l2.take n)

/-- The merge loop of `buildHuffmanTree` (lines 395–400): while more than
one node remains, pop the two smallest and push their merge.  The merged
internal node is `&Node{freq: left.freq + right.freq, left: l, right: r}`
— its `char` is the zero value 0.  Fuel: each iteration shrinks the queue
by one. -/
def buildLoop : Nat → List HTree → List HTree
  | 0, l => l
  | fuel + 1, l =>
    if l.length > 1 then
      let (left, l1) := heapPop l
      let (right, l2) := heapPop l1
      buildLoop fuel (heapPush l2 (.node 0 (left.freq + right.freq) left right))
    else l

/-- `buildHuffmanTree` (lines 381–403).  The frequency map is passed as an
association list in its (unspecified, randomized) Go iteration order; the
function errors on an empty map. -/
def buildHuffmanTree (freqOrder : List (Int × Int)) : Option HTree :=
  if freqOrder.isEmpty then none
  else
    let pq := heapInit (freqOrder.map fun p => HTree.node p.1 p.2 .nil .nil)
    some (heapPop (buildLoop pq.length pq)).1

/-- `huffmanBuilder` (lines 420–430): depth-first code extraction,
`false` = '0' for a left descent, `true` = '1' for a right descent.  The
codes map is returned as an association list in depth-first order. -/
def huffmanBuilder : HTree → List Bool → List (Int × List Bool)
  | .nil, _ => []
  | .node c _ .nil .nil, pre => [(c, pre)]
  | .node _ _ l r, pre =>
      huffmanBuilder l (pre ++ [false]) ++ huffmanBuilder r (pre ++ [true])

/-- `GetHuffmanCodes` (lines 405–417). -/
def GetHuffmanCodes (freqOrder : List (Int × Int)) : Option (List (Int × List Bool)) :=
  (buildHuffmanTree freqOrder).map (fun root => huffmanBuilder root [])

/-- Code lookup (`codes[char]`) in the association-list representation of
the codes map. -/
def lookupCode (codes : List (Int × List Bool)) (c : Int) : Option (List Bool) :=
  (codes.find? fun p => p.1 == c).map (·.2)

end hfc

namespace hfc

/-- `byte(char)` conversion: low 8 bits of the `rune`. -/
def byteOfChar (c : Int) : Nat := (c % 256).toNat

/-- `uint32` view of a `rune` (`uint32(k)` in `WriteHuffmanCodes`). -/
def u32OfChar (c : Int) : Nat := (c % 4294967296).toNat

/-- `rune(r)` conversion of a `uint32` (`ReadHuffmanCodes`): an `int32`
reinterpretation. -/
def charOfU32 (r : Nat) : Int :=
  if r % 4294967296 < 2147483648 then Int.ofNat (r % 4294967296)
  else Int.ofNat (r % 4294967296) - 4294967296

/-- One step of `freq[rune(b)]++` on the frequency map, kept as an
association list in insertion order. -/
def bump (freq : List (Int × Int)) (c : Int) : List (Int × Int) :=
  if (freq.find? fun p => p.1 == c).isSome then
    freq.map fun p => if p.1 == c then (p.1, p.2 + 1) else p
  else freq ++ [(c, 1)]

/-- `getFrequencyMap` (lines 456–473): count every byte of the input into
the frequency map. -/
def getFrequencyMap (input : List Nat) (freq : List (Int × Int)) : List (Int × Int) :=
  input.foldl (fun f b => bump f (Int.ofNat b)) freq

/-- The bit-packing loop inside `WriteHuffmanCodes` (lines 485–502):
MSB-first packing of a code string into bytes, emitting each completed
byte, plus the final partial byte if any. -/
def packCodeAux : List Bool → Nat → Nat → List Nat → List Nat
  | [], cb, idx, out => if idx > 0 then out ++ [cb] else out
  | b :: rest, cb, idx, out =>
    let cb' := if b then cb ||| (1 <<< (7 - idx)) else cb
    if idx + 1 == 8 then packCodeAux rest 0 0 (out ++ [cb'])
    else packCodeAux rest cb' (idx + 1) out

/-- Packed bytes of one code (`completeByte`/`completeByteIndex` loop). -/
def packCode (v : List Bool) : List Nat := packCodeAux v 0 0 []

/-- `WriteHuffmanCodes` (lines 475–506): a `uint16` code count, then for
each code (in map-iteration order, here the list order) the `uint32` rune,
a one-byte bit length, and the packed code bits. -/
def WriteHuffmanCodes (codes : List (Int × List Bool)) : List Nat :=
  SZ.u16le (codes.length % 65536) ++
  (codes.map fun p =>
    SZ.u32le (u32OfChar p.1) ++ [p.2.length % 256] ++ packCode p.2).flatten

/-- Map insertion `codes[r] = code` (overwrite or append). -/
def mapSet (codes : List (Int × List Bool)) (k : Int) (v : List Bool) :
    List (Int × List Bool) :=
  if (codes.find? fun p => p.1 == k).isSome then
    codes.map fun p => if p.1 == k then (k, v) else p
  else codes ++ [(k, v)]

/-- The single `file.Read(codeBits)` of one packed-code field in
`ReadHuffmanCodes`: the destination is pre-zeroed and only checked for an
error, so a short read leaves trailing zero bytes; a read of `n > 0` bytes
from an exhausted stream is `io.EOF` and fails. -/
def readCodeBits (size : Nat) (s : List Nat) : Option (List Nat × List Nat) :=
  if size = 0 then some ([], s)
  else if s.isEmpty then none
  else some (s.take size ++ List.replicate (size - (s.take size).length) 0, s.drop size)

/-- Unpacking `codeLen` bits, MSB-first, out of the packed bytes
(`ReadHuffmanCodes` lines 538–547). -/
def unpackCode (codeBits : List Nat) (codeLen : Nat) : List Bool :=
  (List.range codeLen).map fun bitIndex =>
    (codeBits.getD (bitIndex / 8) 0) / 2 ^ (7 - bitIndex % 8) % 2 == 1

/-- The entry-reading loop of `ReadHuffmanCodes`. -/
def readCodesLoop : Nat → List (Int × List Bool) → List Nat →
    Option (List (Int × List Bool) × List Nat)
  | 0, codes, s => some (codes, s)
  | count + 1, codes, s => do
    let (rBytes, s1) ← SZ.readFull 4 s
    let (lenBytes, s2) ← SZ.readFull 1 s1
    let codeLen := lenBytes.getD 0 0
    let (codeBits, s3) ← readCodeBits ((codeLen + 7) / 8) s2
    readCodesLoop count (mapSet codes (charOfU32 (SZ.leVal rBytes)) (unpackCode codeBits codeLen)) s3

/-- `ReadHuffmanCodes` (lines 508–554): `uint16` count, then the entries. -/
def ReadHuffmanCodes (s : List Nat) : Option (List (Int × List Bool) × List Nat) := do
  let (numCodes, s1) ← SZ.readU16le s
  readCodesLoop numCodes [] s1

/-- The state threaded through `compressData`/`processByte`:
`currentByte` (a `byte`), `bitCount` (a `uint8`, always `< 8`),
`compressedLength` (a `uint64`), and the bytes written so far. -/
structure CompState where
  cb : Nat
  bc : Nat
  len : Nat
  out : List Nat
deriving Repr, DecidableEq

/-- The per-bit loop body of `processByte` (lines 606–621): shift the bit
in; on the eighth bit flush the byte. -/
def pushBit (st : CompState) (bit : Bool) : CompState :=
  let cb := (st.cb * 2 + if bit then 1 else 0) % 256
  if st.bc + 1 == 8 then ⟨0, 0, st.len + 1, st.out ++ [cb]⟩
  else ⟨cb, st.bc + 1, st.len, st.out⟩

/-- `processByte` (lines 597–625): look every buffer byte up in the code
table (error when absent) and push its bits. -/
def processByte (buf : List Nat) (codes : List (Int × List Bool)) (st : CompState) :
    Option CompState :=
  match buf with
  | [] => some st
  | b :: rest => do
    let code ← lookupCode codes (Int.ofNat b)
    processByte rest codes (code.foldl pushBit st)

/-- The chunked read loop of `compressData` (lines 562–574). -/
def compressChunks (chunks : List (List Nat)) (codes : List (Int × List Bool))
    (st : CompState) : Option CompState :=
  match chunks with
  | [] => some st
  | c :: rest => do
    let st' ← processByte c codes st
    compressChunks rest codes st'

/-- `compressData` (lines 556–595): encode the input through 256-byte read
chunks, then append the 2-byte trailer — the final byte (left-shifted into
position, or 0 when the stream ended on a byte boundary) and the count of
significant bits in it — and add 2 to the returned length. -/
def compressData (input : List Nat) (codes : List (Int × List Bool)) :
    Option (List Nat × Nat) := do
  let st ← compressChunks (SZ.chunksOf 256 input) codes ⟨0, 0, 0, []⟩
  let withLast := if st.bc > 0 then st.out ++ [st.cb * 2 ^ (8 - st.bc) % 256]
                  else st.out ++ [0]
  some (withLast ++ [st.bc], st.len + 2)

/-- Inserting one `(code, char)` pair while rebuilding the decode tree
(`rebuildHuffmanTree`, lines 432–454): walk the bits from the root,
creating zero-valued nodes as needed, and set `char` at the end. -/
def insertCode : List Bool → Int → HTree → HTree
  | [], c, .nil => .node c 0 .nil .nil
  | [], c, .node _ f l r => .node c f l r
  | false :: bs, c, .nil => .node 0 0 (insertCode bs c .nil) .nil
  | false :: bs, c, .node ch f l r => .node ch f (insertCode bs c l) r
  | true :: bs, c, .nil => .node 0 0 .nil (insertCode bs c .nil)
  | true :: bs, c, .node ch f l r => .node ch f l (insertCode bs c r)

/-- `rebuildHuffmanTree` (lines 432–454), over the codes in list order. -/
def rebuildHuffmanTree (codes : List (Int × List Bool)) : HTree :=
  codes.foldl (fun t p => insertCode p.2 p.1 t) (.node 0 0 .nil .nil)

/-- The state of the streaming decoder: the `uint32` bit accumulator
`leftOverByte`, the `uint8` counter `leftOverByteCount`, the current tree
position, and the bytes written. -/
structure DState where
  leftOver : Nat
  leftCnt : Nat
  cur : HTree
  out : List Nat
deriving Repr, DecidableEq

/-- The MSB-first bit values of one byte (`for i := 7; i >= 0; i--`). -/
def byteBitsMSB (b : Nat) : List Nat :=
  (List.range 8).map fun k => b / 2 ^ (7 - k) % 2

/-- One bit of `decompressFullByte` (lines 698–722): accumulate the bit,
descend, and emit-and-reset at a leaf.  Descending out of the tree makes
the Go code dereference a nil `*Node`: modelled as `none`. -/
def decompBit (root : HTree) (st : DState) (bit : Nat) : Option DState :=
  let lo := (st.leftOver * 2 + bit) % 4294967296
  let lc := (st.leftCnt + 1) % 256
  match (if bit == 0 then st.cur.left else st.cur.right) with
  | .nil => none
  | .node c f l r =>
    if l = .nil ∧ r = .nil then some ⟨0, 0, root, st.out ++ [byteOfChar c]⟩
    else some ⟨lo, lc, .node c f l r, st.out⟩

/-- `decompressFullByte` over one byte of the buffer. -/
def decompByte (root : HTree) (st : DState) (b : Nat) : Option DState :=
  (byteBitsMSB b).foldlM (decompBit root) st

/-- `decompressFullByte` (lines 698–722) over a whole buffer. -/
def decompressFullByte (root : HTree) (st : DState) (buf : List Nat) : Option DState :=
  buf.foldlM (decompByte root) st

/-- `adjustBuffer` (lines 682–696): after the first chunk, re-prepend the
two held-back bytes; then hold back the last two bytes of the combined
buffer as the candidate `(lastByte, bitCount)` trailer.  When fewer than
two bytes are at hand the Go slice expression panics: `none`. -/
def adjustBuffer (loopFlag : Nat) (n : Nat) (lastByte lastCnt readBuffer : List Nat) :
    Option (Nat × List Nat × List Nat × List Nat) :=
  let n' := if loopFlag ≠ 0 then n + 2 else n
  let buf := if loopFlag ≠ 0 then lastByte ++ lastCnt ++ readBuffer else readBuffer
  if n' < 2 then none
  else some (n', ((buf.drop (n' - 2)).take 1), ((buf.drop (n' - 1)).take 1), buf.take (n' - 2))

/-- One bit of the replay loop in `decompressRemainingBits`
(lines 736–752). -/
def replayBit (root : HTree) (st : HTree × List Nat) (bit : Nat) :
    Option (HTree × List Nat) :=
  match (if bit == 0 then st.1.left else st.1.right) with
  | .nil => none
  | .node c f l r =>
    if l = .nil ∧ r = .nil then some (root, st.2 ++ [byteOfChar c])
    else some (.node c f l r, st.2)

/-- `decompressRemainingBits` (lines 724–755): append the `numOfBits`
significant bits of the trailer byte to the accumulated leftover bits,
then replay them from the root.  Two faithful machine-width effects: a
trailer byte count above 8 would shift by a negative amount (a Go panic,
`none`), and the replay bound `int(remainingBitsLen - 1)` underflows the
`uint8` to 255 when the combined count is 0, replaying 256 zero bits. -/
def decompressRemainingBits (remainingBits remainingBitsLen numOfBits lastByte : Nat)
    (root : HTree) : Option (List Nat) :=
  if numOfBits > 8 then none
  else
    let acc := (List.range numOfBits).foldl
      (fun (p : Nat × Nat) k =>
        ((p.1 * 2 + lastByte / 2 ^ (7 - k) % 2) % 4294967296, (p.2 + 1) % 256))
      (remainingBits, remainingBitsLen)
    let start := (acc.2 + 255) % 256
    let bits := (List.range (start + 1)).map fun k => acc.1 / 2 ^ (start - k) % 2
    (bits.foldlM (replayBit root) (root, [])).map (·.2)

/-- The read loop of `decompressData` (lines 645–677), with fuel: each
iteration either reads at least one byte (bounded by `limiter`) or is the
final zero-read iteration, so fuel `limiter + 2` always suffices. -/
def decompressLoop : Nat → HTree → List Nat → List Nat → DState → Nat → Nat → Nat →
    List Nat → Option (List Nat × List Nat)
  | 0, _, _, _, _, _, _, _, _ => none
  | fuel + 1, root, lastByte, lastCnt, st, loopFlag, dataRead, limiter, s =>
    let bytesToRead := if dataRead ≤ limiter then min BUFFER_SIZE (limiter - dataRead)
                       else BUFFER_SIZE
    let (readBuffer, s') := SZ.readUpTo bytesToRead s
    let n := readBuffer.length
    if n == 0 then
      match decompressRemainingBits st.leftOver st.leftCnt (lastCnt.getD 0 0)
        (lastByte.getD 0 0) root with
      | none => none
      | some extra => some (st.out ++ extra, s')
    else
      match adjustBuffer loopFlag n lastByte lastCnt readBuffer with
      | none => none
      | some (_, lastByte', lastCnt', buffer) =>
        match decompressFullByte root { st with out := st.out } buffer with
        | none => none
        | some st' =>
          decompressLoop fuel root lastByte' lastCnt' st' 1 (dataRead + n) limiter s'

/-- `decompressData` (lines 627–680): rebuild the tree from the code table
and run the read loop over exactly `limiter` stream bytes; returns the
decoded bytes and the unread rest of the stream. -/
def decompressData (s : List Nat) (codes : List (Int × List Bool)) (limiter : Nat) :
    Option (List Nat × List Nat) :=
  let root := rebuildHuffmanTree codes
  decompressLoop (limiter + 2) root [0] [0] ⟨0, 0, root, []⟩ 0 0 limiter s

end hfc

namespace hfc

/-- A `utils.FileData` record as `Zip` consumes it: the name bytes and the
content bytes (the `io.Reader` over a file of known content). -/
abbrev FileData := List Nat × List Nat

/-- The frequency pre-pass of `generateCodes` (lines 807–827): every
record's name bytes, then its content bytes, through `getFrequencyMap`.
The association list is kept in first-insertion order; this is the one
fixed stand-in for Go's unspecified map iteration order (claims that
depend on the order quantify over it instead). -/
def generateFreq (files : List FileData) : List (Int × Int) :=
  files.foldl (fun f file => getFrequencyMap file.2 (getFrequencyMap file.1 f)) []

/-- `writeFileName` (lines 843–865): Huffman-encode the name into a scratch
buffer, then emit its `uint16` length and the buffer. -/
def writeFileName (name : List Nat) (codes : List (Int × List Bool)) :
    Option (List Nat) := do
  let (buf, compLen) ← compressData name codes
  some (SZ.u16le (compLen % 65536) ++ buf)

/-- `writeNumOfFiles` (lines 876–883). -/
def writeNumOfFiles (numOfFiles : Nat) : List Nat :=
  SZ.u64le (numOfFiles % 18446744073709551616)

/-- The per-record body of `Zip` (lines 770–802): the compressed name
field, then the payload length and payload.  `Zip` writes a placeholder
`uint64` 0, streams the payload, and seeks back to overwrite the
placeholder with the true compressed length; the net bytes are the length
followed by the payload. -/
def zipRecord (file : FileData) (codes : List (Int × List Bool)) :
    Option (List Nat) := do
  let nameField ← writeFileName file.1 codes
  let (payload, compLen) ← compressData file.2 codes
  some (nameField ++ SZ.u64le (compLen % 18446744073709551616) ++ payload)

/-- The record loop of `Zip`. -/
def zipRecords (files : List FileData) (codes : List (Int × List Bool)) :
    Option (List Nat) :=
  match files with
  | [] => some []
  | f :: rest => do
    let r ← zipRecord f codes
    let rs ← zipRecords rest codes
    some (r ++ rs)

/-- `Zip` (lines 758–805): build the code table from the frequency
pre-pass over all names and payloads, write it, write the file count, then
write each record. -/
def Zip (files : List FileData) : Option (List Nat) := do
  let codes ← GetHuffmanCodes (generateFreq files)
  let body ← zipRecords files codes
  some (WriteHuffmanCodes codes ++ writeNumOfFiles files.length ++ body)

/-- `readNumOfFiles` (lines 867–874). -/
def readNumOfFiles (s : List Nat) : Option (Nat × List Nat) := SZ.readU64le s

/-- `readFileName` (lines 885–907): a `uint16` length, that many bytes
into an in-memory buffer, and a `decompressData` pass over the buffer with
the length as limiter. -/
def readFileName (s : List Nat) (codes : List (Int × List Bool)) :
    Option (List Nat × List Nat) := do
  let (nameLen, s1) ← SZ.readU16le s
  let (buf, s2) ← SZ.readFull nameLen s1
  let (name, _) ← decompressData buf codes nameLen
  some (name, s2)

/-- The record loop of `Unzip` (lines 932–967).  The filesystem steps
(`path.Join` with the output directory, `MakeOutputDir`, `os.Create`) are
collaborator calls; the decoded name and content are returned instead. -/
def unzipRecords : Nat → List Nat → List (Int × List Bool) → List FileData →
    Option (List FileData × List Nat)
  | 0, s, _, acc => some (acc, s)
  | count + 1, s, codes, acc => do
    let (name, s1) ← readFileName s codes
    let (compressedSize, s2) ← SZ.readU64le s1
    let (content, s3) ← decompressData s2 codes compressedSize
    unzipRecords count s3 codes (acc ++ [(name, content)])

/-- `Unzip` (lines 910–970): read the code table and the file count (error
when it is zero), then decode each record; returns the records and the
unread rest of the stream. -/
def Unzip (s : List Nat) : Option (List FileData × List Nat) := do
  let (codes, s1) ← ReadHuffmanCodes s
  let (numOfFiles, s2) ← readNumOfFiles s1
  if numOfFiles < 1 then none
  else unzipRecords numOfFiles s2 codes []

end hfc

namespace constants

/-- `src/constants/constants.go` line 5. -/
def BUFFER_SIZE : Nat := 256

/-- Plaintext-envelope sentinel (`src/constants/constants.go`). -/
def NO_PASSWORD : Nat := 43

/-- Encrypted-envelope sentinel (`src/constants/constants.go`). -/
def PASSWORD : Nat := 57

end constants

namespace encryption

/-- AES-GCM's nonce size (`gcm.NonceSize()`, Go standard library). -/
def nonceSize : Nat := 12

/-- AES-GCM's tag overhead (`gcm.Overhead()`, Go standard library). -/
def gcmOverhead : Nat := 16

/-- `generateKey` (`src/encryption/encryption.go` lines 308–317): reject a
password over 32 bytes, right-pad shorter ones with `'0'` (0x30) to 32. -/
def generateKey (password : List Nat) : Option (List Nat) :=
  if password.length > 32 then none
  else some (password ++ List.replicate (32 - password.length) 48)

/-- `writeMetadata` (lines 76–85): the one-byte mode sentinel. -/
def writeMetadata (password : List Nat) : List Nat :=
  if password.isEmpty then [constants.NO_PASSWORD] else [constants.PASSWORD]

/-- The read loop of `processStream`, with fuel: each round consumes at
least one plaintext byte, so `s.length + 1` rounds always reach the end. -/
def processStreamAux : Nat → (List Nat → List Nat) → List Nat → List Nat
  | 0, _, _ => []
  | fuel + 1, sealF, s =>
    if s.isEmpty then []
    else sealF (s.take constants.BUFFER_SIZE) ++
         processStreamAux fuel sealF (s.drop constants.BUFFER_SIZE)

/-- `processStream` (lines 249–267): read the plaintext in chunks of
`constants.BUFFER_SIZE` bytes and emit `gcm.Seal` of each chunk.  The AEAD
(`gcm.Seal` with the fixed key and nonce) is the Go crypto library, an
external collaborator: it is a parameter `sealF`. -/
def processStream (sealF : List Nat → List Nat) (s : List Nat) : List Nat :=
  processStreamAux (s.length + 1) sealF s

/-- `encryptWithPassword` (lines 132–160): derive the key, write the fresh
random nonce (a parameter of the embedding), and seal the chunks.  The
result is the pair (bytes written so far, success flag): on the
password-too-long error the bytes already written remain written. -/
def encryptWithPassword (sealF : List Nat → List Nat) (nonce : List Nat)
    (data password : List Nat) : List Nat × Bool :=
  match generateKey password with
  | none => ([], false)
  | some _key => (nonce ++ processStream sealF data, true)

/-- `EncryptStream` (lines 25–36): write the mode sentinel first, then
either copy the data (empty password) or encrypt it. -/
def EncryptStream (sealF : List Nat → List Nat) (nonce : List Nat)
    (data password : List Nat) : List Nat × Bool :=
  let meta := writeMetadata password
  if password.isEmpty then (meta ++ data, true)
  else
    let (rest, ok) := encryptWithPassword sealF nonce data password
    (meta ++ rest, ok)

/-- `readMetadata` (lines 100–113). -/
def readMetadata (s : List Nat) : Option (Bool × List Nat) := do
  let (m, s1) ← SZ.readFull 1 s
  if m.getD 0 0 == constants.NO_PASSWORD then some (false, s1)
  else if m.getD 0 0 == constants.PASSWORD then some (true, s1)
  else none

/-- The read loop of `decryptStream`, with fuel (as for
`processStreamAux`). -/
def decryptStreamAux : Nat → (List Nat → Option (List Nat)) → List Nat →
    Option (List Nat)
  | 0, _, _ => none
  | fuel + 1, openF, s =>
    if s.isEmpty then some []
    else do
      let pt ← openF (s.take (constants.BUFFER_SIZE + gcmOverhead))
      let rest ← decryptStreamAux fuel openF (s.drop (constants.BUFFER_SIZE + gcmOverhead))
      some (pt ++ rest)

/-- `decryptStream` (lines 281–302): read ciphertext chunks of
`constants.BUFFER_SIZE + gcm.Overhead()` bytes and `gcm.Open` each;
any failed open aborts with no plaintext from that chunk. -/
def decryptStream (openF : List Nat → Option (List Nat)) (s : List Nat) :
    Option (List Nat) :=
  decryptStreamAux (s.length + 1) openF s

/-- `decryptWithPassword` (lines 182–212): require a password, derive the
key, read the 12-byte nonce, then open the chunks. -/
def decryptWithPassword (openF : List Nat → Option (List Nat))
    (password s : List Nat) : Option (List Nat) :=
  if password.isEmpty then none
  else do
    let _key ← generateKey password
    let (_nonce, s1) ← SZ.readFull nonceSize s
    decryptStream openF s1

/-- `DecryptStream` (lines 49–63): dispatch on the sentinel; a plaintext
envelope is copied verbatim (`copyData`) whatever the password. -/
def DecryptStream (openF : List Nat → Option (List Nat))
    (password s : List Nat) : Option (List Nat) := do
  let (hasPassword, s1) ← readMetadata s
  if hasPassword then decryptWithPassword openF password s1
  else some s1

end encryption

/-! ## Helper facts -/

/-- The empty-password stand-ins never matter for plaintext envelopes, but
several witnesses need a concrete AEAD satisfying the GCM length law and
the open-inverts-seal law; appending a 16-byte tag of zeros and dropping
it again is such a pair. -/
def standinSeal (p : List Nat) : List Nat := p ++ List.replicate 16 0

/-- Stand-in `gcm.Open`, inverse of `standinSeal`. -/
def standinOpen (c : List Nat) : Option (List Nat) := some (c.take (c.length - 16))

theorem standinSeal_length (p : List Nat) : (standinSeal p).length = p.length + 16 := by
  simp [standinSeal]

theorem standinOpen_standinSeal (p : List Nat) : standinOpen (standinSeal p) = some p := by
  simp [standinSeal, standinOpen, List.take_append]

/-! ## C1 -/

/-- **C1.** The spec claims `decompress(compress(X)) == X` for every
non-empty `X`.  It fails: for the single file named `"a"` (byte 0x61) with
payload `"aaa"`, the frequency map has one distinct byte, the Huffman
code table maps it to the empty code, and `Unzip` crashes (a nil `*Node`
dereference in the trailing-bits replay, modelled `none`) instead of
returning the file. -/
theorem C1_roundtrip_fails_on_single_distinct_byte :
    (hfc.Zip [([97], [97, 97, 97])]).isSome ∧
    (hfc.Zip [([97], [97, 97, 97])]).bind hfc.Unzip = none := by
  decide

/-! ## C3 -/

/-- **C3 counterexample.** The claim says a single-distinct-byte input gets
the one-bit code `"0"`; the code table built for the frequency map
`{88 ↦ 100}` instead assigns byte 88 the empty code. -/
theorem C3_counterexample :
    hfc.GetHuffmanCodes [(88, 100)] = some [(88, [])] ∧
    hfc.lookupCode [(88, [])] 88 ≠ some [false] := by
  decide

/-- **C3 (amended).** For every input whose bytes are all one single
distinct value, the code-table construction assigns that byte the *empty*
code (length 0), not a one-bit code: the tree is a single leaf and
`huffmanBuilder` records the empty prefix at it. -/
theorem C3_single_distinct_byte_gets_empty_code (b f : Int) :
    hfc.GetHuffmanCodes [(b, f)] = some [(b, [])] := by
  simp [hfc.GetHuffmanCodes, hfc.buildHuffmanTree, hfc.heapInit, hfc.heapInitAux,
    hfc.buildLoop, hfc.heapPop, hfc.hSwap, hfc.hGet, hfc.hDown, hfc.downAux,
    hfc.huffmanBuilder]

/-! ## C4 -/

/-- **C4.** The claim says the byte-to-code mapping is identical across
runs for a fixed multiset (ties among merged nodes broken by a propagated
constituent byte).  The code propagates nothing: merged nodes carry
`char = 0`, so frequency ties between merged nodes are resolved by heap
layout, which depends on Go's randomized map iteration order.  For the
multiset {97,...,104 each once}, the two iteration orders below (each a
permutation of the other) give byte 99 the codes `100` and `110`
respectively. -/
theorem C4_table_depends_on_map_iteration_order :
    List.Perm
      [((100 : Int), (1 : Int)), (98, 1), (104, 1), (97, 1), (103, 1), (99, 1), (101, 1), (102, 1)]
      [(97, 1), (98, 1), (99, 1), (100, 1), (101, 1), (102, 1), (103, 1), (104, 1)] ∧
    ∃ t1 t2,
      hfc.GetHuffmanCodes
        [(97, 1), (98, 1), (99, 1), (100, 1), (101, 1), (102, 1), (103, 1), (104, 1)] = some t1 ∧
      hfc.GetHuffmanCodes
        [(100, 1), (98, 1), (104, 1), (97, 1), (103, 1), (99, 1), (101, 1), (102, 1)] = some t2 ∧
      hfc.lookupCode t1 99 ≠ hfc.lookupCode t2 99 := by
  refine ⟨by decide, ⟨_, _, rfl, rfl, by decide⟩⟩

/-! ## C6 -/

/-- **C6 counterexample.** The claim says the code count is serialized as
an 8-byte little-endian u64.  For the two-code table below the container
head would then be `[2,0,0,0,0,0,0,0]`; the writer actually emits the
2-byte u16 `[2,0]` followed immediately by the first code entry (rune 97),
and the reader consumes only 2 bytes for the count. -/
theorem C6_counterexample :
    (hfc.WriteHuffmanCodes [(97, [false]), (98, [true])]).take 8 ≠ [2, 0, 0, 0, 0, 0, 0, 0] ∧
    (hfc.WriteHuffmanCodes [(97, [false]), (98, [true])]).take 8 = [2, 0, 97, 0, 0, 0, 1, 0] := by
  decide

/-! ## C9 -/

/-- **C9 counterexample.** The claim says the password-too-long error is
surfaced before any byte is written.  With a 33-byte password,
`EncryptStream` has already written the one-byte mode sentinel 57 when
`generateKey` fails. -/
theorem C9_counterexample :
    encryption.EncryptStream standinSeal (List.replicate 12 0) [1, 2, 3]
      (List.replicate 33 97) = ([57], false) ∧
    ([57] : List Nat) ≠ [] := by
  decide

/-- **C9 (amended).** For every password longer than 32 bytes, the
encryption write path writes exactly the one-byte mode sentinel 57 and
then surfaces the password-too-long error before any further output
(no nonce, no ciphertext). -/
theorem C9_password_too_long_after_sentinel
    (sealF : List Nat → List Nat) (nonce data password : List Nat)
    (h : password.length > 32) :
    encryption.EncryptStream sealF nonce data password = ([constants.PASSWORD], false) := by
  have hne : password ≠ [] := by
    intro hcon
    rw [hcon] at h
    simp at h
  have hemp : password.isEmpty = false := by
    simpa [List.isEmpty_iff] using hne
  simp [encryption.EncryptStream, encryption.encryptWithPassword, encryption.generateKey,
    encryption.writeMetadata, hemp, h]

/-- Witness for `C9_password_too_long_after_sentinel` at a concrete
33-byte password. -/
theorem C9_password_too_long_witness :
    encryption.EncryptStream standinSeal [7] [1, 2] (List.replicate 33 98) =
      ([constants.PASSWORD], false) :=
  C9_password_too_long_after_sentinel standinSeal [7] [1, 2] (List.replicate 33 98) (by decide)

/-! ## C10 -/

/-- **C10.** For every input stream whose first byte is the plaintext
sentinel 43 and every password (used or not), `DecryptStream` succeeds and
copies the remaining bytes verbatim: the password is never consulted on an
unencrypted envelope. -/
theorem C10_plaintext_envelope_ignores_password
    (openF : List Nat → Option (List Nat)) (password data : List Nat) :
    encryption.DecryptStream openF password (43 :: data) = some data := by
  simp [encryption.DecryptStream, encryption.readMetadata, SZ.readFull,
    constants.NO_PASSWORD, constants.PASSWORD]

/-! ## C7 counterexample -/

/-- **C7 counterexample.** The claim says appending one byte to a valid
archive makes decompression fail with `UnexpectedTrailingData`.  For the
valid archive of the single file `"a"` ↦ `"bbb"`, `Unzip` on the archive
plus one trailing byte succeeds with the same record and simply leaves the
trailing byte unread: no end-of-stream check exists. -/
theorem C7_counterexample :
    (hfc.Zip [([97], [98, 98, 98])]).bind hfc.Unzip =
      some ([([97], [98, 98, 98])], []) ∧
    (hfc.Zip [([97], [98, 98, 98])]).bind (fun a => hfc.Unzip (a ++ [0])) =
      some ([([97], [98, 98, 98])], [0]) := by
  decide

/-! ## C8 -/

/-- Fuel-irrelevance of the chunk decomposition. -/
theorem chunksOfAux_fuel (n : Nat) :
    ∀ f1 f2 s, s.length < f1 → s.length < f2 →
      SZ.chunksOfAux f1 n s = SZ.chunksOfAux f2 n s := by
  intro f1
  induction f1 with
  | zero => intro f2 s h1 _; omega
  | succ f ih =>
    intro f2 s h1 h2
    cases f2 with
    | zero => omega
    | succ g =>
      by_cases hc : s.isEmpty = true ∨ n = 0
      · simp only [SZ.chunksOfAux, if_pos hc]
      · have hs : s ≠ [] := by
          intro hnil
          exact hc (Or.inl (by simp [hnil]))
        have hlen : 0 < s.length := List.length_pos.mpr hs
        have hn : 0 < n := by
          rcases Nat.eq_zero_or_pos n with h0 | h0
          · exact absurd (Or.inr h0) hc
          · exact h0
        simp only [SZ.chunksOfAux, if_neg hc]
        rw [ih g (s.drop n) (by simp only [List.length_drop]; omega)
          (by simp only [List.length_drop]; omega)]

/-- One-step unfolding of `chunksOf`. -/
theorem chunksOf_eq (n : Nat) (s : List Nat) :
    SZ.chunksOf n s =
      if s.isEmpty ∨ n = 0 then [] else s.take n :: SZ.chunksOf n (s.drop n) := by
  show SZ.chunksOfAux (s.length + 1) n s = _
  rw [SZ.chunksOfAux]
  by_cases hc : s.isEmpty = true ∨ n = 0
  · simp only [if_pos hc]
  · have hs : s ≠ [] := by
      intro hnil
      exact hc (Or.inl (by simp [hnil]))
    have hlen : 0 < s.length := List.length_pos.mpr hs
    have hn : 0 < n := by
      rcases Nat.eq_zero_or_pos n with h0 | h0
      · exact absurd (Or.inr h0) hc
      · exact h0
    simp only [if_neg hc]
    rw [chunksOfAux_fuel n s.length ((s.drop n).length + 1) (s.drop n)
      (by simp only [List.length_drop]; omega) (by omega)]
    rfl


/-- Every chunk is at most `n` bytes. -/
theorem chunksOfAux_mem_length_le (n : Nat) :
    ∀ fuel s c, c ∈ SZ.chunksOfAux fuel n s → c.length ≤ n := by
  intro fuel
  induction fuel with
  | zero => intro s c hc; simp [SZ.chunksOfAux] at hc
  | succ f ih =>
    intro s c hc
    rw [SZ.chunksOfAux] at hc
    split_ifs at hc
    · simp at hc
    · rw [List.mem_cons] at hc
      rcases hc with h | h
      · subst h; simp only [List.length_take]; omega
      · exact ih (s.drop n) c h

/-- `chunksOf` version of `chunksOfAux_mem_length_le`. -/
theorem chunksOf_mem_length_le (n : Nat) (s c : List Nat)
    (h : c ∈ SZ.chunksOf n s) : c.length ≤ n :=
  chunksOfAux_mem_length_le n (s.length + 1) s c h

/-- A non-empty chunk list means the stream was non-empty and `n > 0`. -/
theorem chunksOfAux_ne_nil (n : Nat) :
    ∀ fuel s, SZ.chunksOfAux fuel n s ≠ [] → s ≠ [] ∧ n ≠ 0 := by
  intro fuel s h
  cases fuel with
  | zero => simp [SZ.chunksOfAux] at h
  | succ f =>
    rw [SZ.chunksOfAux] at h
    split_ifs at h with hcond
    · exact absurd rfl h
    · constructor
      · intro hnil
        apply hcond
        subst hnil
        simp
      · intro h0
        exact hcond (Or.inr h0)

/-- Every chunk except possibly the last is exactly `n` bytes. -/
theorem chunksOfAux_dropLast_length (n : Nat) :
    ∀ fuel s c, c ∈ (SZ.chunksOfAux fuel n s).dropLast → c.length = n := by
  intro fuel
  induction fuel with
  | zero => intro s c hc; simp [SZ.chunksOfAux] at hc
  | succ f ih =>
    intro s c hc
    rw [SZ.chunksOfAux] at hc
    split_ifs at hc
    · simp at hc
    · by_cases htail : SZ.chunksOfAux f n (s.drop n) = []
      · simp [htail] at hc
      · rw [List.dropLast_cons_of_ne_nil htail, List.mem_cons] at hc
        rcases hc with h | h
        · subst h
          have hd : s.drop n ≠ [] := (chunksOfAux_ne_nil n f (s.drop n) htail).1
          have hlt : n < s.length := by
            by_contra hge
            push_neg at hge
            exact hd (List.drop_eq_nil_of_le hge)
          simp only [List.length_take]
          omega
        · exact ih (s.drop n) c h

/-- `chunksOf` version of `chunksOfAux_dropLast_length`. -/
theorem chunksOf_dropLast_length (n : Nat) (s c : List Nat)
    (h : c ∈ (SZ.chunksOf n s).dropLast) : c.length = n :=
  chunksOfAux_dropLast_length n (s.length + 1) s c h

/-- The encryption read loop produces exactly the seal of each chunk. -/
theorem processStreamAux_chunks (sealF : List Nat → List Nat) :
    ∀ fuel s, s.length < fuel →
      encryption.processStreamAux fuel sealF s =
        ((SZ.chunksOf constants.BUFFER_SIZE s).map sealF).flatten := by
  intro fuel
  induction fuel with
  | zero => intro s h; omega
  | succ f ih =>
    intro s h
    rw [encryption.processStreamAux, chunksOf_eq]
    by_cases hs : s = []
    · subst hs; simp
    · have hlen : 0 < s.length := List.length_pos.mpr hs
      have hrec : (s.drop constants.BUFFER_SIZE).length < f := by
        simp only [List.length_drop, constants.BUFFER_SIZE]
        omega
      rw [ih _ hrec]
      have hsb : s.isEmpty = false := by simpa [List.isEmpty_iff] using hs
      simp [hsb, constants.BUFFER_SIZE]

/-- **C8 (amended).** When a non-empty password is given, the encryption
write path splits the plaintext container into chunks of exactly
`constants.BUFFER_SIZE` = 256 plaintext bytes (the final chunk may be
shorter) and seals each chunk independently, so each on-disk chunk is
256 + 16 bytes except possibly the last. -/
theorem C8_encryption_chunks_of_256 (sealF : List Nat → List Nat) (data : List Nat)
    (hlen : ∀ p, (sealF p).length = p.length + 16) :
    constants.BUFFER_SIZE = 256 ∧
    encryption.processStream sealF data =
      ((SZ.chunksOf constants.BUFFER_SIZE data).map sealF).flatten ∧
    (∀ c ∈ SZ.chunksOf constants.BUFFER_SIZE data,
      (sealF c).length = c.length + 16 ∧ c.length ≤ 256) ∧
    (∀ c ∈ (SZ.chunksOf constants.BUFFER_SIZE data).dropLast, c.length = 256) := by
  refine ⟨rfl, ?_, ?_, ?_⟩
  · exact processStreamAux_chunks sealF (data.length + 1) data (by omega)
  · intro c hc
    exact ⟨hlen c, chunksOf_mem_length_le constants.BUFFER_SIZE data c hc⟩
  · intro c hc
    exact chunksOf_dropLast_length constants.BUFFER_SIZE data c hc

/-- Witness for `C8_encryption_chunks_of_256` with the stand-in AEAD and a
300-byte plaintext (two chunks: 256 and 44 bytes). -/
theorem C8_encryption_chunks_witness :
    constants.BUFFER_SIZE = 256 ∧
    encryption.processStream standinSeal (List.replicate 300 7) =
      ((SZ.chunksOf constants.BUFFER_SIZE (List.replicate 300 7)).map standinSeal).flatten ∧
    (∀ c ∈ SZ.chunksOf constants.BUFFER_SIZE (List.replicate 300 7),
      (standinSeal c).length = c.length + 16 ∧ c.length ≤ 256) ∧
    (∀ c ∈ (SZ.chunksOf constants.BUFFER_SIZE (List.replicate 300 7)).dropLast,
      c.length = 256) :=
  C8_encryption_chunks_of_256 standinSeal (List.replicate 300 7) standinSeal_length

set_option maxRecDepth 8000 in
/-- **C8 counterexample.** The claim's 1024-byte chunking would wrap a
300-byte container in a single sealed chunk of 316 on-disk bytes; the code
(`BUFFER_SIZE` = 256) produces two sealed chunks totalling 332 bytes. -/
theorem C8_counterexample :
    (encryption.processStream standinSeal (List.replicate 300 7)).length = 332 ∧
    encryption.processStream standinSeal (List.replicate 300 7) ≠
      standinSeal (List.replicate 300 7) := by
  decide

/-! ## C5 -/

/-- Total number of encoded bits of an input under a code table: the sum
of the code lengths of its bytes. -/
def totalBits (input : List Nat) (codes : List (Int × List Bool)) : Nat :=
  (input.map fun b => ((hfc.lookupCode codes (Int.ofNat b)).getD []).length).sum

/-- `pushBit` keeps the encoder invariant (`bitCount < 8`, bytes written =
`compressedLength`) and advances the bit total by one. -/
theorem pushBit_inv (st : hfc.CompState) (bit : Bool)
    (h1 : st.bc < 8) (h2 : st.out.length = st.len) :
    (hfc.pushBit st bit).bc < 8 ∧
    (hfc.pushBit st bit).out.length = (hfc.pushBit st bit).len ∧
    (hfc.pushBit st bit).len * 8 + (hfc.pushBit st bit).bc = st.len * 8 + st.bc + 1 := by
  unfold hfc.pushBit
  by_cases h : st.bc + 1 = 8
  · simp only [h, beq_self_eq_true, if_true]
    refine ⟨by omega, by simp [h2], by omega⟩
  · have hb : (st.bc + 1 == 8) = false := by simpa using h
    simp only [hb, Bool.false_eq_true, if_false]
    exact ⟨by omega, by simpa using h2, by omega⟩

/-- Folding a whole code through `pushBit`. -/
theorem foldl_pushBit_inv (code : List Bool) :
    ∀ st : hfc.CompState, st.bc < 8 → st.out.length = st.len →
      (code.foldl hfc.pushBit st).bc < 8 ∧
      (code.foldl hfc.pushBit st).out.length = (code.foldl hfc.pushBit st).len ∧
      (code.foldl hfc.pushBit st).len * 8 + (code.foldl hfc.pushBit st).bc =
        st.len * 8 + st.bc + code.length := by
  induction code with
  | nil => intro st h1 h2; exact ⟨h1, h2, by simp⟩
  | cons b rest ih =>
    intro st h1 h2
    obtain ⟨g1, g2, g3⟩ := pushBit_inv st b h1 h2
    obtain ⟨k1, k2, k3⟩ := ih (hfc.pushBit st b) g1 g2
    exact ⟨k1, k2, by simp only [List.foldl_cons, List.length_cons]; omega⟩

/-- `processByte` on a buffer whose bytes all have codes: succeeds, keeps
the invariant, and advances the bit total by the buffer's `totalBits`. -/
theorem processByte_inv (buf : List Nat) :
    ∀ (codes : List (Int × List Bool)) (st : hfc.CompState),
      (∀ b ∈ buf, (hfc.lookupCode codes (Int.ofNat b)).isSome) →
      st.bc < 8 → st.out.length = st.len →
      ∃ st', hfc.processByte buf codes st = some st' ∧ st'.bc < 8 ∧
        st'.out.length = st'.len ∧
        st'.len * 8 + st'.bc = st.len * 8 + st.bc + totalBits buf codes := by
  induction buf with
  | nil =>
    intro codes st _ h1 h2
    exact ⟨st, rfl, h1, h2, by simp [totalBits]⟩
  | cons b rest ih =>
    intro codes st hmem h1 h2
    obtain ⟨code, hcode⟩ := Option.isSome_iff_exists.mp (hmem b (by simp))
    obtain ⟨g1, g2, g3⟩ := foldl_pushBit_inv code st h1 h2
    obtain ⟨st', hst', k1, k2, k3⟩ :=
      ih codes (code.foldl hfc.pushBit st) (fun x hx => hmem x (by simp [hx])) g1 g2
    refine ⟨st', ?_, k1, k2, ?_⟩
    · simp only [hfc.processByte, hcode, Option.bind_eq_bind, Option.some_bind]
      exact hst'
    · simp only [totalBits, List.map_cons, List.sum_cons, hcode, Option.getD_some]
      simp only [totalBits] at k3
      omega

/-- `compressChunks` over any chunk list: the bit total of the
concatenation. -/
theorem compressChunks_inv (chunks : List (List Nat)) :
    ∀ (codes : List (Int × List Bool)) (st : hfc.CompState),
      (∀ b ∈ chunks.flatten, (hfc.lookupCode codes (Int.ofNat b)).isSome) →
      st.bc < 8 → st.out.length = st.len →
      ∃ st', hfc.compressChunks chunks codes st = some st' ∧ st'.bc < 8 ∧
        st'.out.length = st'.len ∧
        st'.len * 8 + st'.bc = st.len * 8 + st.bc + totalBits chunks.flatten codes := by
  induction chunks with
  | nil =>
    intro codes st _ h1 h2
    exact ⟨st, rfl, h1, h2, by simp [totalBits]⟩
  | cons c rest ih =>
    intro codes st hmem h1 h2
    obtain ⟨st1, hst1, g1, g2, g3⟩ :=
      processByte_inv c codes st (fun b hb => hmem b (by simp [hb])) h1 h2
    obtain ⟨st', hst', k1, k2, k3⟩ :=
      ih codes st1 (fun b hb => hmem b (by simp [hb])) g1 g2
    refine ⟨st', ?_, k1, k2, ?_⟩
    · simp only [hfc.compressChunks, hst1, Option.bind_eq_bind, Option.some_bind]
      exact hst'
    · simp only [List.flatten_cons, totalBits, List.map_append, List.sum_append]
      simp only [totalBits] at g3 k3
      omega

/-- The chunks of a stream concatenate back to the stream. -/
theorem chunksOfAux_flatten (n : Nat) (hn : n ≠ 0) :
    ∀ fuel s, s.length < fuel → (SZ.chunksOfAux fuel n s).flatten = s := by
  intro fuel
  induction fuel with
  | zero => intro s h; omega
  | succ f ih =>
    intro s h
    rw [SZ.chunksOfAux]
    by_cases hs : s = []
    · subst hs; simp
    · have hlen : 0 < s.length := List.length_pos.mpr hs
      have hsb : s.isEmpty = false := by simpa [List.isEmpty_iff] using hs
      have hcond : ¬(s.isEmpty = true ∨ n = 0) := by
        rintro (h1 | h1)
        · rw [hsb] at h1; exact Bool.false_ne_true h1
        · exact hn h1
      rw [if_neg hcond]
      have hrec : (s.drop n).length < f := by
        simp only [List.length_drop]
        omega
      simp only [List.flatten_cons, ih _ hrec, List.take_append_drop]

/-- `chunksOf` version of `chunksOfAux_flatten`. -/
theorem chunksOf_flatten (n : Nat) (hn : n ≠ 0) (s : List Nat) :
    (SZ.chunksOf n s).flatten = s :=
  chunksOfAux_flatten n hn (s.length + 1) s (by omega)

/-- **C5.** For every input stream and every code table containing a code
for each input byte, `compressData` writes a field of `byteCount` bytes
and returns exactly that `byteCount` (the 2-byte trailer included); the
trailer's `validBits` byte is below 8, and the total number of encoded
bits equals `(byteCount − 2) · 8 + validBits` when `validBits > 0` and
`(byteCount − 2) · 8` when `validBits = 0`. -/
theorem C5_compressData_accounting (input : List Nat) (codes : List (Int × List Bool))
    (h : ∀ b ∈ input, (hfc.lookupCode codes (Int.ofNat b)).isSome) :
    ∃ out byteCount, hfc.compressData input codes = some (out, byteCount) ∧
      byteCount = out.length ∧ 2 ≤ byteCount ∧
      ∃ validBits, out.getLast? = some validBits ∧ validBits < 8 ∧
        (0 < validBits → totalBits input codes = (byteCount - 2) * 8 + validBits) ∧
        (validBits = 0 → totalBits input codes = (byteCount - 2) * 8) := by
  have hmem : ∀ b ∈ (SZ.chunksOf 256 input).flatten,
      (hfc.lookupCode codes (Int.ofNat b)).isSome := by
    rw [chunksOf_flatten 256 (by omega) input]
    exact h
  obtain ⟨st', hst', k1, k2, k3⟩ :=
    compressChunks_inv (SZ.chunksOf 256 input) codes ⟨0, 0, 0, []⟩ hmem
      (by decide) (by decide)
  rw [chunksOf_flatten 256 (by omega) input] at k3
  have hcd : hfc.compressData input codes =
      some ((if st'.bc > 0 then st'.out ++ [st'.cb * 2 ^ (8 - st'.bc) % 256]
             else st'.out ++ [0]) ++ [st'.bc], st'.len + 2) := by
    simp only [hfc.compressData, hst', Option.bind_eq_bind, Option.some_bind]
  refine ⟨_, _, hcd, ?_, ?_, st'.bc, ?_, k1, ?_, ?_⟩
  · by_cases hbc : st'.bc > 0 <;> simp [hbc, k2]
  · omega
  · simp [List.getLast?_concat]
  · intro hpos
    simp only at k3
    omega
  · intro hzero
    simp only at k3
    omega

/-- Witness for `C5_compressData_accounting`: the input `"abb"` under the
table `{a ↦ 0, b ↦ 1}` (field `[0x60, 3]`, 3 bits, `validBits = 3`). -/
theorem C5_compressData_accounting_witness :
    ∃ out byteCount,
      hfc.compressData [97, 98, 98] [(97, [false]), (98, [true])] = some (out, byteCount) ∧
      byteCount = out.length ∧ 2 ≤ byteCount ∧
      ∃ validBits, out.getLast? = some validBits ∧ validBits < 8 ∧
        (0 < validBits →
          totalBits [97, 98, 98] [(97, [false]), (98, [true])] = (byteCount - 2) * 8 + validBits) ∧
        (validBits = 0 →
          totalBits [97, 98, 98] [(97, [false]), (98, [true])] = (byteCount - 2) * 8) :=
  C5_compressData_accounting [97, 98, 98] [(97, [false]), (98, [true])] (by decide)

/-! ## C6 amended -/

/-- **C6 (amended).** The archive writer serializes the code count at the
head of the container as a **2-byte little-endian u16**
(`uint16(len(codes))`), and the reader parses exactly a little-endian u16
there before the entries. -/
theorem C6_code_count_is_u16le (codes : List (Int × List Bool)) (k : Nat)
    (s : List Nat) (hk : k < 65536) :
    (hfc.WriteHuffmanCodes codes).take 2 = SZ.u16le (codes.length % 65536) ∧
    hfc.ReadHuffmanCodes (SZ.u16le k ++ s) = hfc.readCodesLoop k [] s := by
  constructor
  · simp [hfc.WriteHuffmanCodes, SZ.u16le]
  · have h1 : SZ.readU16le (SZ.u16le k ++ s) = some (k, s) := by
      have hval : SZ.leVal [k % 256, k / 256 % 256] = k := by
        simp only [SZ.leVal]
        omega
      simp [SZ.readU16le, SZ.readFull, SZ.u16le, hval]
    simp [hfc.ReadHuffmanCodes, h1]

/-- Witness for `C6_code_count_is_u16le` at the one-code table `{a ↦ 0}`
and count 1. -/
theorem C6_code_count_witness :
    (hfc.WriteHuffmanCodes [(97, [false])]).take 2 = SZ.u16le (([(97, [false])] :
        List (Int × List Bool)).length % 65536) ∧
    hfc.ReadHuffmanCodes (SZ.u16le 1 ++ [97, 0, 0, 0, 1, 0]) =
      hfc.readCodesLoop 1 [] [97, 0, 0, 0, 1, 0] :=
  C6_code_count_is_u16le [(97, [false])] 1 [97, 0, 0, 0, 1, 0] (by omega)

/-! ## C2 -/

/-- The encryption loop on an exhausted reader emits nothing. -/
theorem processStreamAux_nil (sealF : List Nat → List Nat) :
    ∀ fuel, encryption.processStreamAux fuel sealF [] = [] := by
  intro fuel
  cases fuel <;> simp [encryption.processStreamAux]

/-- A plaintext of at most one chunk is sealed whole. -/
theorem processStream_single_chunk (sealF : List Nat → List Nat) (s : List Nat)
    (hs : s ≠ []) (hlen : s.length ≤ constants.BUFFER_SIZE) :
    encryption.processStream sealF s = sealF s := by
  show encryption.processStreamAux (s.length + 1) sealF s = sealF s
  rw [encryption.processStreamAux]
  have hsb : s.isEmpty = false := by simpa [List.isEmpty_iff] using hs
  have h1 : s.take constants.BUFFER_SIZE = s := List.take_of_length_le hlen
  have h2 : s.drop constants.BUFFER_SIZE = [] := List.drop_eq_nil_of_le hlen
  simp [hsb, h1, h2, processStreamAux_nil]

/-- The decryption loop on an exhausted reader (with the fuel its caller
supplies) emits nothing. -/
theorem decryptStreamAux_nil (openF : List Nat → Option (List Nat)) :
    ∀ fuel, 1 ≤ fuel → encryption.decryptStreamAux fuel openF [] = some [] := by
  intro fuel h
  cases fuel with
  | zero => omega
  | succ f => simp [encryption.decryptStreamAux]

/-- A ciphertext of at most one sealed chunk is opened whole. -/
theorem decryptStream_single_chunk (openF : List Nat → Option (List Nat)) (c : List Nat)
    (hc : c ≠ []) (hlen : c.length ≤ constants.BUFFER_SIZE + encryption.gcmOverhead) :
    encryption.decryptStream openF c = openF c := by
  show encryption.decryptStreamAux (c.length + 1) openF c = openF c
  rw [encryption.decryptStreamAux]
  have hcb : c.isEmpty = false := by simpa [List.isEmpty_iff] using hc
  have h1 : c.take (constants.BUFFER_SIZE + encryption.gcmOverhead) = c :=
    List.take_of_length_le hlen
  have h2 : c.drop (constants.BUFFER_SIZE + encryption.gcmOverhead) = [] :=
    List.drop_eq_nil_of_le hlen
  have h3 : 1 ≤ c.length := List.length_pos.mpr hc
  rw [h1, h2]
  simp only [hcb, Bool.false_eq_true, if_false,
    decryptStreamAux_nil openF c.length h3]
  cases openF c <;> simp

/-- **C2.** The spec claims `decompress(encrypt(compress(X), p), p) == X`
for every non-empty password `p` of at most 32 bytes.  The encryption
envelope does round-trip (for any AEAD with `Open ∘ Seal = id`), but the
claim still fails, for the same input as C1: the container that `Zip`
produces for the file `"a"` ↦ `"aaa"` survives encryption and decryption
byte-for-byte, and then `Unzip` crashes on it instead of returning `X`. -/
theorem C2_encrypted_roundtrip_still_fails
    (sealF : List Nat → List Nat) (openF : List Nat → Option (List Nat))
    (nonce password : List Nat)
    (hseal : ∀ p, (sealF p).length = p.length + 16)
    (hopen : ∀ p, openF (sealF p) = some p)
    (hnonce : nonce.length = 12)
    (hpw : password ≠ []) (hpwlen : password.length ≤ 32) :
    ∃ container : List Nat,
      hfc.Zip [([97], [97, 97, 97])] = some container ∧
      encryption.DecryptStream openF password
        (encryption.EncryptStream sealF nonce container password).1 = some container ∧
      hfc.Unzip container = none := by
  refine ⟨[1, 0, 97, 0, 0, 0, 0, 1, 0, 0, 0, 0, 0, 0, 0, 2, 0, 0, 0,
    2, 0, 0, 0, 0, 0, 0, 0, 0, 0], by decide, ?_, by decide⟩
  set A : List Nat := [1, 0, 97, 0, 0, 0, 0, 1, 0, 0, 0, 0, 0, 0, 0, 2, 0, 0, 0,
    2, 0, 0, 0, 0, 0, 0, 0, 0, 0] with hA
  have hempF : password.isEmpty = false := by simpa [List.isEmpty_iff] using hpw
  have hkey : encryption.generateKey password =
      some (password ++ List.replicate (32 - password.length) 48) := by
    rw [encryption.generateKey, if_neg (by omega)]
  have hps : encryption.processStream sealF A = sealF A :=
    processStream_single_chunk sealF A (by decide) (by decide)
  have henc : (encryption.EncryptStream sealF nonce A password).1 =
      57 :: (nonce ++ sealF A) := by
    simp [encryption.EncryptStream, encryption.writeMetadata, hempF,
      encryption.encryptWithPassword, hkey, constants.PASSWORD, hps]
  rw [henc]
  have hmeta : encryption.readMetadata (57 :: (nonce ++ sealF A)) =
      some (true, nonce ++ sealF A) := by
    simp [encryption.readMetadata, SZ.readFull, constants.NO_PASSWORD, constants.PASSWORD]
  have hsA : (sealF A).length = 45 := by rw [hseal]; decide
  have h12 : encryption.nonceSize = nonce.length := by
    rw [hnonce]
    rfl
  have hnonceRead : SZ.readFull encryption.nonceSize (nonce ++ sealF A) =
      some (nonce, sealF A) := by
    rw [SZ.readFull, h12, if_pos (by simp)]
    simp [List.take_left, List.drop_left]
  have hds : encryption.decryptStream openF (sealF A) = some A := by
    rw [decryptStream_single_chunk openF (sealF A)
      (by intro hnil; rw [hnil] at hsA; simp at hsA)
      (by rw [hsA]; decide)]
    exact hopen A
  simp [encryption.DecryptStream, hmeta, encryption.decryptWithPassword, hempF,
    hkey, hnonceRead, hds]

/-- Witness for `C2_encrypted_roundtrip_still_fails` with the stand-in
AEAD, an all-nines nonce, and the password `"pw"`. -/
theorem C2_encrypted_roundtrip_witness :
    ∃ container : List Nat,
      hfc.Zip [([97], [97, 97, 97])] = some container ∧
      encryption.DecryptStream standinOpen [112, 119]
        (encryption.EncryptStream standinSeal (List.replicate 12 9) container
          [112, 119]).1 = some container ∧
      hfc.Unzip container = none :=
  C2_encrypted_roundtrip_still_fails standinSeal standinOpen (List.replicate 12 9)
    [112, 119] standinSeal_length standinOpen_standinSeal (by decide) (by decide) (by decide)

/-! ## C7: trailing data is never examined

`Unzip` is a sequential reader: every primitive either consumes a prefix
of the stream or fails.  We show that a successful run that does not
exhaust its stream (its returned rest is non-empty, which rules out any
short read, since a short read empties the stream for good) depends only
on the consumed prefix. -/

/-- A stream function returns a suffix of its input as the unread rest. -/
def Consumes {α : Type} (F : List Nat → Option (α × List Nat)) : Prop :=
  ∀ s r t, F s = some (r, t) → t <:+ s

/-- A stream function never examines bytes past the ones it consumes: a
successful run on `c ++ rest` that returns exactly `rest`, with `rest`
non-empty, runs identically on `c ++ u` for every `u`. -/
def TailIndep {α : Type} (F : List Nat → Option (α × List Nat)) : Prop :=
  ∀ c rest r, F (c ++ rest) = some (r, rest) → rest ≠ [] →
    ∀ u, F (c ++ u) = some (r, u)

theorem consumes_pure {α : Type} (a : α) : Consumes (fun s => some (a, s)) := by
  intro s r t h
  injection h with h'
  injection h' with h1 h2
  rw [← h2]

theorem tailIndep_pure {α : Type} (a : α) : TailIndep (fun s => some (a, s)) := by
  intro c rest r h hne u
  injection h with h'
  injection h' with h1 h2
  have hc : c = [] := by
    have hl := congrArg List.length h2
    simp only [List.length_append] at hl
    exact List.eq_nil_of_length_eq_zero (by omega)
  subst hc
  simp [h1]

theorem consumes_none {α : Type} :
    Consumes (fun _ => (none : Option (α × List Nat))) := by
  intro s r t h
  cases h

theorem tailIndep_none {α : Type} :
    TailIndep (fun _ => (none : Option (α × List Nat))) := by
  intro c rest r h
  cases h

theorem consumes_bind {α β : Type} {F : List Nat → Option (α × List Nat)}
    {G : α → List Nat → Option (β × List Nat)}
    (hF : Consumes F) (hG : ∀ a, Consumes (G a)) :
    Consumes (fun s => (F s).bind fun p => G p.1 p.2) := by
  intro s r t h
  simp only [Option.bind_eq_some] at h
  obtain ⟨⟨a, s1⟩, hp, hg⟩ := h
  have hg2 : G a s1 = some (r, t) := hg
  exact (hG a s1 r t hg2).trans (hF s a s1 hp)

theorem tailIndep_bind {α β : Type} {F : List Nat → Option (α × List Nat)}
    {G : α → List Nat → Option (β × List Nat)}
    (hFc : Consumes F) (hGc : ∀ a, Consumes (G a))
    (hF : TailIndep F) (hG : ∀ a, TailIndep (G a)) :
    TailIndep (fun s => (F s).bind fun p => G p.1 p.2) := by
  intro c rest r h hne u
  simp only [Option.bind_eq_some] at h ⊢
  obtain ⟨⟨a, s1⟩, hp, hg⟩ := h
  have hg2 : G a s1 = some (r, rest) := hg
  have h1 : rest <:+ s1 := hGc a s1 r rest hg2
  have h2 : s1 <:+ c ++ rest := hFc (c ++ rest) a s1 hp
  obtain ⟨c1, hc1⟩ := h1
  obtain ⟨c2, hc2⟩ := h2
  have hcat : (c2 ++ c1) ++ rest = c ++ rest := by
    rw [List.append_assoc, hc1, hc2]
  have hc : c2 ++ c1 = c := List.append_cancel_right hcat
  have hp' : F (c2 ++ (c1 ++ rest)) = some (a, c1 ++ rest) := by
    rw [← List.append_assoc, hc, hp, hc1]
  have hg' : G a (c1 ++ rest) = some (r, rest) := by
    rw [hc1]; exact hg2
  have hne1 : c1 ++ rest ≠ [] := fun hcon => hne (List.append_eq_nil.mp hcon).2
  refine ⟨(a, c1 ++ u), ?_, hG a c1 rest r hg' hne u⟩
  have := hF c2 (c1 ++ rest) a hp' hne1 (c1 ++ u)
  rw [← hc, List.append_assoc]
  exact this

theorem readFull_consumes (n : Nat) : Consumes (SZ.readFull n) := by
  intro s r t h
  rw [SZ.readFull] at h
  split_ifs at h with hc
  · injection h with h'
    injection h' with h1 h2
    rw [← h2]
    exact List.drop_suffix n s

theorem readFull_tailIndep (n : Nat) : TailIndep (SZ.readFull n) := by
  intro c rest r h hne u
  rw [SZ.readFull] at h ⊢
  split_ifs at h with hc
  · injection h with h'
    injection h' with h1 h2
    have hlen : n = c.length := by
      have hd := congrArg List.length h2
      simp only [List.length_drop, List.length_append] at hd
      have hr : 0 < rest.length := List.length_pos.mpr hne
      simp only [List.length_append] at hc
      omega
    subst hlen
    rw [List.take_left] at h1
    rw [if_pos (by simp only [List.length_append]; omega)]
    rw [List.take_left, List.drop_left, h1]

/-- `Consumes`/`TailIndep` transfer along a result-only transformation. -/
theorem consumes_mapFst {α β : Type} {F : List Nat → Option (α × List Nat)}
    (hF : Consumes F) (g : α → β) :
    Consumes (fun s => (F s).map fun p => (g p.1, p.2)) := by
  intro s r t h
  simp only [Option.map_eq_some'] at h
  obtain ⟨⟨a, s1⟩, hp, heq⟩ := h
  have heq2 : (g a, s1) = (r, t) := heq
  injection heq2 with h1 h2
  rw [← h2]
  exact hF s a s1 hp

theorem tailIndep_mapFst {α β : Type} {F : List Nat → Option (α × List Nat)}
    (hF : TailIndep F) (g : α → β) :
    TailIndep (fun s => (F s).map fun p => (g p.1, p.2)) := by
  intro c rest r h hne u
  simp only [Option.map_eq_some'] at h ⊢
  obtain ⟨⟨a, s1⟩, hp, heq⟩ := h
  have heq2 : (g a, s1) = (r, rest) := heq
  injection heq2 with h1 h2
  have hp2 : F (c ++ rest) = some (a, rest) := by rw [hp, h2]
  exact ⟨(a, u), hF c rest a hp2 hne u, by rw [← h1]⟩

theorem readU16le_consumes : Consumes SZ.readU16le :=
  consumes_mapFst (readFull_consumes 2) SZ.leVal

theorem readU16le_tailIndep : TailIndep SZ.readU16le :=
  tailIndep_mapFst (readFull_tailIndep 2) SZ.leVal

theorem readU64le_consumes : Consumes SZ.readU64le :=
  consumes_mapFst (readFull_consumes 8) SZ.leVal

theorem readU64le_tailIndep : TailIndep SZ.readU64le :=
  tailIndep_mapFst (readFull_tailIndep 8) SZ.leVal

theorem readCodeBits_consumes (size : Nat) : Consumes (hfc.readCodeBits size) := by
  intro s r t h
  rw [hfc.readCodeBits] at h
  split_ifs at h with h0 hemp
  · injection h with h'
    injection h' with h1 h2
    rw [← h2]
  · injection h with h'
    injection h' with h1 h2
    rw [← h2]
    exact List.drop_suffix size s

theorem readCodeBits_tailIndep (size : Nat) : TailIndep (hfc.readCodeBits size) := by
  intro c rest r h hne u
  rw [hfc.readCodeBits] at h ⊢
  split_ifs at h with h0 hemp
  · injection h with h'
    injection h' with h1 h2
    have hc : c = [] := by
      have hl := congrArg List.length h2
      simp only [List.length_append] at hl
      exact List.eq_nil_of_length_eq_zero (by omega)
    subst hc
    rw [if_pos h0]
    simp [← h1]
  · injection h with h'
    injection h' with h1 h2
    have hlen : size ≤ c.length := by
      have hd := congrArg List.length h2
      simp only [List.length_drop, List.length_append] at hd
      have hr : 0 < rest.length := List.length_pos.mpr hne
      omega
    have hdq : (c ++ rest).drop size = c.drop size ++ rest :=
      List.drop_append_of_le_length hlen
    have hrest : c.drop size ++ rest = rest := by rw [← hdq, h2]
    have hdnil : c.drop size = [] := by
      have hl := congrArg List.length hrest
      simp only [List.length_append] at hl
      exact List.eq_nil_of_length_eq_zero (by omega)
    have hsz : size = c.length := by
      have hl := congrArg List.length hdnil
      simp only [List.length_drop] at hl
      simp only [List.length_nil] at hl
      omega
    have hcne : c ≠ [] := by
      intro hcnil
      rw [hcnil] at hsz
      exact h0 (by simpa using hsz)
    rw [if_neg h0, if_neg (by
      intro hcon
      have hnil : (c : List Nat) ++ u = [] := by simpa [List.isEmpty_iff] using hcon
      exact hcne (List.append_eq_nil.mp hnil).1)]
    rw [hsz] at h1 ⊢
    rw [List.take_left] at h1
    rw [List.take_left, List.drop_left]
    simp only [Nat.sub_self, List.replicate_zero, List.append_nil] at h1 ⊢
    rw [← h1]

/-- Bind-composition with the continuation taken on the result pair (the
shape `do`-notation produces). -/
theorem consumes_bindK {α β : Type} {F : List Nat → Option (α × List Nat)}
    {K : α × List Nat → Option (β × List Nat)}
    (hF : Consumes F) (hK : ∀ a, Consumes (fun s => K (a, s))) :
    Consumes (fun s => (F s).bind K) :=
  consumes_bind (G := fun a s => K (a, s)) hF hK

theorem tailIndep_bindK {α β : Type} {F : List Nat → Option (α × List Nat)}
    {K : α × List Nat → Option (β × List Nat)}
    (hFc : Consumes F) (hKc : ∀ a, Consumes (fun s => K (a, s)))
    (hF : TailIndep F) (hK : ∀ a, TailIndep (fun s => K (a, s))) :
    TailIndep (fun s => (F s).bind K) :=
  tailIndep_bind (G := fun a s => K (a, s)) hFc hKc hF hK

/-- A bind whose scrutinee does not involve the stream, followed by a pure
return of the stream, is stream-pure. -/
theorem consumes_constBind {β γ : Type} (o : Option γ) (f : γ → β) :
    Consumes (fun s => o.bind fun w => some (f w, s)) := by
  cases o with
  | none => exact consumes_none
  | some w => exact consumes_pure (f w)

theorem tailIndep_constBind {β γ : Type} (o : Option γ) (f : γ → β) :
    TailIndep (fun s => o.bind fun w => some (f w, s)) := by
  cases o with
  | none => exact tailIndep_none
  | some w => exact tailIndep_pure (f w)

theorem decompressLoop_consumes :
    ∀ fuel root lb lc st lf dr lim,
      Consumes (hfc.decompressLoop fuel root lb lc st lf dr lim) := by
  intro fuel
  induction fuel with
  | zero =>
    intro root lb lc st lf dr lim s r t h
    rw [hfc.decompressLoop] at h
    cases h
  | succ f ih =>
    intro root lb lc st lf dr lim s r t h
    rw [hfc.decompressLoop] at h
    simp only [SZ.readUpTo] at h
    set btr := if dr ≤ lim then min hfc.BUFFER_SIZE (lim - dr) else hfc.BUFFER_SIZE
      with hbtr
    by_cases hz : ((s.take btr).length == 0) = true
    · rw [if_pos hz] at h
      cases hdrb : hfc.decompressRemainingBits st.leftOver st.leftCnt (lc.getD 0 0)
          (lb.getD 0 0) root with
      | none => rw [hdrb] at h; cases h
      | some extra =>
        rw [hdrb] at h
        injection h with h'
        injection h' with h1 h2
        rw [← h2]
        exact List.drop_suffix btr s
    · rw [if_neg hz] at h
      cases hadj : hfc.adjustBuffer lf (s.take btr).length lb lc (s.take btr) with
      | none => rw [hadj] at h; cases h
      | some tup =>
        obtain ⟨n', lb', lc', buffer⟩ := tup
        rw [hadj] at h
        dsimp only at h
        cases hfull : hfc.decompressFullByte root { st with out := st.out } buffer with
        | none => rw [hfull] at h; cases h
        | some st' =>
          rw [hfull] at h
          exact (ih root lb' lc' st' 1 (dr + (s.take btr).length) lim (s.drop btr)
            r t h).trans (List.drop_suffix btr s)

theorem decompressLoop_tailIndep :
    ∀ fuel root lb lc st lf dr lim,
      TailIndep (hfc.decompressLoop fuel root lb lc st lf dr lim) := by
  intro fuel
  induction fuel with
  | zero =>
    intro root lb lc st lf dr lim c rest r h hne u
    rw [hfc.decompressLoop] at h
    cases h
  | succ f ih =>
    intro root lb lc st lf dr lim c rest r h hne u
    rw [hfc.decompressLoop] at h ⊢
    simp only [SZ.readUpTo] at h ⊢
    set btr := if dr ≤ lim then min hfc.BUFFER_SIZE (lim - dr) else hfc.BUFFER_SIZE
      with hbtr
    by_cases hz : (((c ++ rest).take btr).length == 0) = true
    · have hb0 : btr = 0 := by
        have hz' : ((c ++ rest).take btr).length = 0 := by simpa using hz
        have hrest : 0 < rest.length := List.length_pos.mpr hne
        simp only [List.length_take, List.length_append] at hz'
        omega
      rw [if_pos hz] at h
      cases hdrb : hfc.decompressRemainingBits st.leftOver st.leftCnt (lc.getD 0 0)
          (lb.getD 0 0) root with
      | none => rw [hdrb] at h; cases h
      | some extra =>
        rw [hdrb] at h
        injection h with h'
        injection h' with h1 h2
        have hc : c = [] := by
          rw [hb0, List.drop_zero] at h2
          have hl := congrArg List.length h2
          simp only [List.length_append] at hl
          exact List.eq_nil_of_length_eq_zero (by omega)
        subst hc
        rw [if_pos (by rw [hb0]; simp)]
        dsimp only
        rw [hb0]
        simp [← h1]
    · rw [if_neg hz] at h
      cases hadj : hfc.adjustBuffer lf ((c ++ rest).take btr).length lb lc
          ((c ++ rest).take btr) with
      | none => rw [hadj] at h; cases h
      | some tup =>
        obtain ⟨n', lb', lc', buffer⟩ := tup
        rw [hadj] at h
        dsimp only at h
        cases hfull : hfc.decompressFullByte root { st with out := st.out } buffer with
        | none => rw [hfull] at h; cases h
        | some st' =>
          rw [hfull] at h
          have hsuf : rest <:+ (c ++ rest).drop btr :=
            decompressLoop_consumes f root lb' lc' st' 1
              (dr + ((c ++ rest).take btr).length) lim ((c ++ rest).drop btr) r rest h
          have hble : btr ≤ c.length := by
            have hl := hsuf.length_le
            simp only [List.length_drop, List.length_append] at hl
            have hrest : 0 < rest.length := List.length_pos.mpr hne
            omega
          have htake : (c ++ rest).take btr = c.take btr :=
            List.take_append_of_le_length hble
          have hdrop : (c ++ rest).drop btr = c.drop btr ++ rest :=
            List.drop_append_of_le_length hble
          have htakeu : (c ++ u).take btr = c.take btr :=
            List.take_append_of_le_length hble
          have hdropu : (c ++ u).drop btr = c.drop btr ++ u :=
            List.drop_append_of_le_length hble
          rw [htake] at hz hadj
          rw [htake, hdrop] at h
          have hrec := ih root lb' lc' st' 1 (dr + (c.take btr).length) lim
            (c.drop btr) rest r h hne u
          rw [htakeu, hdropu, if_neg hz, hadj]
          dsimp only
          rw [hfull]
          dsimp only
          rw [hrec]

theorem decompressData_consumes (codes : List (Int × List Bool)) (lim : Nat) :
    Consumes (fun s => hfc.decompressData s codes lim) :=
  decompressLoop_consumes (lim + 2) (hfc.rebuildHuffmanTree codes) [0] [0]
    ⟨0, 0, hfc.rebuildHuffmanTree codes, []⟩ 0 0 lim

theorem decompressData_tailIndep (codes : List (Int × List Bool)) (lim : Nat) :
    TailIndep (fun s => hfc.decompressData s codes lim) :=
  decompressLoop_tailIndep (lim + 2) (hfc.rebuildHuffmanTree codes) [0] [0]
    ⟨0, 0, hfc.rebuildHuffmanTree codes, []⟩ 0 0 lim

theorem readCodesLoop_consumes :
    ∀ count codes, Consumes (hfc.readCodesLoop count codes) := by
  intro count
  induction count with
  | zero => intro codes; exact consumes_pure codes
  | succ count ih =>
    intro codes
    have hbody : hfc.readCodesLoop (count + 1) codes = fun s =>
        (SZ.readFull 4 s).bind fun rp =>
          (SZ.readFull 1 rp.2).bind fun lp =>
            (hfc.readCodeBits ((lp.1.getD 0 0 + 7) / 8) lp.2).bind fun bp =>
              hfc.readCodesLoop count
                (hfc.mapSet codes (hfc.charOfU32 (SZ.leVal rp.1))
                  (hfc.unpackCode bp.1 (lp.1.getD 0 0))) bp.2 := rfl
    rw [hbody]
    refine consumes_bindK (readFull_consumes 4) fun rBytes => ?_
    dsimp only
    refine consumes_bindK (readFull_consumes 1) fun lenBytes => ?_
    dsimp only
    refine consumes_bindK (readCodeBits_consumes _) fun codeBits => ?_
    dsimp only
    exact ih _

theorem readCodesLoop_tailIndep :
    ∀ count codes, TailIndep (hfc.readCodesLoop count codes) := by
  intro count
  induction count with
  | zero => intro codes; exact tailIndep_pure codes
  | succ count ih =>
    intro codes
    have hbody : hfc.readCodesLoop (count + 1) codes = fun s =>
        (SZ.readFull 4 s).bind fun rp =>
          (SZ.readFull 1 rp.2).bind fun lp =>
            (hfc.readCodeBits ((lp.1.getD 0 0 + 7) / 8) lp.2).bind fun bp =>
              hfc.readCodesLoop count
                (hfc.mapSet codes (hfc.charOfU32 (SZ.leVal rp.1))
                  (hfc.unpackCode bp.1 (lp.1.getD 0 0))) bp.2 := rfl
    rw [hbody]
    refine tailIndep_bindK (readFull_consumes 4) (fun rBytes => ?_)
      (readFull_tailIndep 4) (fun rBytes => ?_)
    · dsimp only
      refine consumes_bindK (readFull_consumes 1) fun lenBytes => ?_
      dsimp only
      refine consumes_bindK (readCodeBits_consumes _) fun codeBits => ?_
      dsimp only
      exact readCodesLoop_consumes _ _
    · dsimp only
      refine tailIndep_bindK (readFull_consumes 1) (fun lenBytes => ?_)
        (readFull_tailIndep 1) (fun lenBytes => ?_)
      · dsimp only
        refine consumes_bindK (readCodeBits_consumes _) fun codeBits => ?_
        dsimp only
        exact readCodesLoop_consumes _ _
      · dsimp only
        refine tailIndep_bindK (readCodeBits_consumes _) (fun codeBits => ?_)
          (readCodeBits_tailIndep _) (fun codeBits => ?_)
        · dsimp only
          exact readCodesLoop_consumes _ _
        · dsimp only
          exact ih _

theorem ReadHuffmanCodes_consumes : Consumes hfc.ReadHuffmanCodes := by
  have hbody : hfc.ReadHuffmanCodes = fun s =>
      (SZ.readU16le s).bind fun np => hfc.readCodesLoop np.1 [] np.2 := rfl
  rw [hbody]
  refine consumes_bindK readU16le_consumes fun numCodes => ?_
  dsimp only
  exact readCodesLoop_consumes _ _

theorem ReadHuffmanCodes_tailIndep : TailIndep hfc.ReadHuffmanCodes := by
  have hbody : hfc.ReadHuffmanCodes = fun s =>
      (SZ.readU16le s).bind fun np => hfc.readCodesLoop np.1 [] np.2 := rfl
  rw [hbody]
  refine tailIndep_bindK readU16le_consumes (fun numCodes => ?_)
    readU16le_tailIndep (fun numCodes => ?_)
  · dsimp only
    exact readCodesLoop_consumes _ _
  · dsimp only
    exact readCodesLoop_tailIndep _ _

theorem readFileName_consumes (codes : List (Int × List Bool)) :
    Consumes (fun s => hfc.readFileName s codes) := by
  have hbody : (fun s => hfc.readFileName s codes) = fun s =>
      (SZ.readU16le s).bind fun np =>
        (SZ.readFull np.1 np.2).bind fun bp =>
          (hfc.decompressData bp.1 codes np.1).bind fun dp =>
            some (dp.1, bp.2) := rfl
  rw [hbody]
  refine consumes_bindK readU16le_consumes fun nameLen => ?_
  dsimp only
  refine consumes_bindK (readFull_consumes _) fun buf => ?_
  dsimp only
  exact consumes_constBind _ _

theorem readFileName_tailIndep (codes : List (Int × List Bool)) :
    TailIndep (fun s => hfc.readFileName s codes) := by
  have hbody : (fun s => hfc.readFileName s codes) = fun s =>
      (SZ.readU16le s).bind fun np =>
        (SZ.readFull np.1 np.2).bind fun bp =>
          (hfc.decompressData bp.1 codes np.1).bind fun dp =>
            some (dp.1, bp.2) := rfl
  rw [hbody]
  refine tailIndep_bindK readU16le_consumes (fun nameLen => ?_)
    readU16le_tailIndep (fun nameLen => ?_)
  · dsimp only
    refine consumes_bindK (readFull_consumes _) fun buf => ?_
    dsimp only
    exact consumes_constBind _ _
  · dsimp only
    refine tailIndep_bindK (readFull_consumes _) (fun buf => ?_)
      (readFull_tailIndep _) (fun buf => ?_)
    · dsimp only
      exact consumes_constBind _ _
    · dsimp only
      exact tailIndep_constBind _ _

theorem unzipRecords_consumes :
    ∀ count codes acc, Consumes (fun s => hfc.unzipRecords count s codes acc) := by
  intro count
  induction count with
  | zero => intro codes acc; exact consumes_pure acc
  | succ count ih =>
    intro codes acc
    have hbody : (fun s => hfc.unzipRecords (count + 1) s codes acc) = fun s =>
        (hfc.readFileName s codes).bind fun np =>
          (SZ.readU64le np.2).bind fun sp =>
            (hfc.decompressData sp.2 codes sp.1).bind fun cp =>
              hfc.unzipRecords count cp.2 codes (acc ++ [(np.1, cp.1)]) := rfl
    rw [hbody]
    refine consumes_bindK (readFileName_consumes codes) fun name => ?_
    dsimp only
    refine consumes_bindK readU64le_consumes fun size => ?_
    dsimp only
    refine consumes_bindK (decompressData_consumes codes size) fun content => ?_
    dsimp only
    exact ih codes _

theorem unzipRecords_tailIndep :
    ∀ count codes acc, TailIndep (fun s => hfc.unzipRecords count s codes acc) := by
  intro count
  induction count with
  | zero => intro codes acc; exact tailIndep_pure acc
  | succ count ih =>
    intro codes acc
    have hbody : (fun s => hfc.unzipRecords (count + 1) s codes acc) = fun s =>
        (hfc.readFileName s codes).bind fun np =>
          (SZ.readU64le np.2).bind fun sp =>
            (hfc.decompressData sp.2 codes sp.1).bind fun cp =>
              hfc.unzipRecords count cp.2 codes (acc ++ [(np.1, cp.1)]) := rfl
    rw [hbody]
    refine tailIndep_bindK (readFileName_consumes codes) (fun name => ?_)
      (readFileName_tailIndep codes) (fun name => ?_)
    · dsimp only
      refine consumes_bindK readU64le_consumes fun size => ?_
      dsimp only
      refine consumes_bindK (decompressData_consumes codes size) fun content => ?_
      dsimp only
      exact unzipRecords_consumes count codes _
    · dsimp only
      refine tailIndep_bindK readU64le_consumes (fun size => ?_)
        readU64le_tailIndep (fun size => ?_)
      · dsimp only
        refine consumes_bindK (decompressData_consumes codes size) fun content => ?_
        dsimp only
        exact unzipRecords_consumes count codes _
      · dsimp only
        refine tailIndep_bindK (decompressData_consumes codes size) (fun content => ?_)
          (decompressData_tailIndep codes size) (fun content => ?_)
        · dsimp only
          exact unzipRecords_consumes count codes _
        · dsimp only
          exact ih codes _

theorem unzip_consumes : Consumes hfc.Unzip := by
  have hbody : hfc.Unzip = fun s =>
      (hfc.ReadHuffmanCodes s).bind fun cp =>
        (hfc.readNumOfFiles cp.2).bind fun np =>
          if np.1 < 1 then none else hfc.unzipRecords np.1 np.2 cp.1 [] := rfl
  rw [hbody]
  refine consumes_bindK ReadHuffmanCodes_consumes fun codes => ?_
  dsimp only
  refine consumes_bindK readU64le_consumes fun numOfFiles => ?_
  dsimp only
  by_cases hnum : numOfFiles < 1
  · simp only [hnum, if_true]
    exact consumes_none
  · simp only [hnum, if_false]
    exact unzipRecords_consumes numOfFiles codes []

theorem unzip_tailIndep : TailIndep hfc.Unzip := by
  have hbody : hfc.Unzip = fun s =>
      (hfc.ReadHuffmanCodes s).bind fun cp =>
        (hfc.readNumOfFiles cp.2).bind fun np =>
          if np.1 < 1 then none else hfc.unzipRecords np.1 np.2 cp.1 [] := rfl
  rw [hbody]
  refine tailIndep_bindK ReadHuffmanCodes_consumes (fun codes => ?_)
    ReadHuffmanCodes_tailIndep (fun codes => ?_)
  · dsimp only
    refine consumes_bindK readU64le_consumes fun numOfFiles => ?_
    dsimp only
    by_cases hnum : numOfFiles < 1
    · simp only [hnum, if_true]
      exact consumes_none
    · simp only [hnum, if_false]
      exact unzipRecords_consumes numOfFiles codes []
  · dsimp only
    refine tailIndep_bindK readU64le_consumes (fun numOfFiles => ?_)
      readU64le_tailIndep (fun numOfFiles => ?_)
    · dsimp only
      by_cases hnum : numOfFiles < 1
      · simp only [hnum, if_true]
        exact consumes_none
      · simp only [hnum, if_false]
        exact unzipRecords_consumes numOfFiles codes []
    · dsimp only
      by_cases hnum : numOfFiles < 1
      · simp only [hnum, if_true]
        exact tailIndep_none
      · simp only [hnum, if_false]
        exact unzipRecords_tailIndep numOfFiles codes []

/-- **C7 (amended).** `Unzip` performs no end-of-stream check: a
successful extraction that leaves a non-empty unread rest is unchanged
when that rest is replaced by any other bytes — in particular, appending
bytes to a fully-consumed valid archive still succeeds with the same
records and simply leaves them unread.  No `UnexpectedTrailingData` error
exists. -/
theorem C7_trailing_bytes_ignored (c rest : List Nat) (files : List hfc.FileData)
    (h : hfc.Unzip (c ++ rest) = some (files, rest)) (hne : rest ≠ [])
    (u : List Nat) :
    hfc.Unzip (c ++ u) = some (files, u) :=
  unzip_tailIndep c rest files h hne u

/-- Witness for `C7_trailing_bytes_ignored`: the valid archive of
`"a"` ↦ `"bbb"` with one trailing byte already appended; replacing that
byte by three other bytes leaves the extraction unchanged. -/
theorem C7_trailing_bytes_witness :
    hfc.Unzip ([2, 0, 97, 0, 0, 0, 1, 0, 98, 0, 0, 0, 1, 128, 1, 0, 0, 0, 0, 0, 0, 0,
      2, 0, 0, 1, 2, 0, 0, 0, 0, 0, 0, 0, 224, 3] ++ [7, 8, 9]) =
      some ([([97], [98, 98, 98])], [7, 8, 9]) :=
  C7_trailing_bytes_ignored
    [2, 0, 97, 0, 0, 0, 1, 0, 98, 0, 0, 0, 1, 128, 1, 0, 0, 0, 0, 0, 0, 0,
      2, 0, 0, 1, 2, 0, 0, 0, 0, 0, 0, 0, 224, 3] [0] [([97], [98, 98, 98])]
    (by decide) (by decide) [7, 8, 9]
